import Mathlib

set_option maxRecDepth 4000

/-!
Verification of the candidate matching / bucketing / unification core of the
AI Hiring Recommendation System repository.

Each definition in this file is a shallow embedding of a function of the
repository's Python sources (the file and symbol are named in the doc
comment).  Scores and vector components are modelled as rationals/reals,
strings as `String` or `List Char`.
-/

namespace Hiring

/-! ## Bucket classifier (`match_candidates.py`, `main`, lines 75-82)

The script compares a similarity score against the three module-level
thresholds `HIRED_THRESHOLD = 0.75`, `SHORTLIST_THRESHOLD = 0.55`,
`REJECTED_THRESHOLD = 0.30` with a first-match-wins `if/elif` chain and
stores one of the single-letter labels "H", "S", "R", "N". -/

/-- The `if/elif` chain of `match_candidates.py` lines 75-82, literally:
`score >= HIRED` gives "H", elif `score >= SHORTLIST` gives "S",
elif `score <= REJECTED` gives "R", else "N". -/
def bucketLetter (score hired shortlist rejected : ℚ) : String :=
  if score ≥ hired then "H"
  else if score ≥ shortlist then "S"
  else if score ≤ rejected then "R"
  else "N"

/-- The legend the repository itself attaches to the letter labels
(`inspect_jd.py`, `build_prompt`: `"H" (Hired), "S" (Shortlisted),
"R" (Rejected), "N" (Non-domain)`), with the spec's spelling of the
fourth label. -/
def bucketName (letter : String) : String :=
  if letter = "H" then "Hired"
  else if letter = "S" then "Shortlisted"
  else if letter = "R" then "Rejected"
  else "NonDomain"

/-- The bucket classifier with its labels spelt out. -/
def bucket (score hired shortlist rejected : ℚ) : String :=
  bucketName (bucketLetter score hired shortlist rejected)

theorem bucket_eq_hired {s hired shortlist rejected : ℚ} (h : hired ≤ s) :
    bucket s hired shortlist rejected = "Hired" := by
  simp [bucket, bucketLetter, bucketName, ge_iff_le, h]

theorem bucket_eq_shortlisted {s hired shortlist rejected : ℚ}
    (h : ¬ hired ≤ s) (h' : shortlist ≤ s) :
    bucket s hired shortlist rejected = "Shortlisted" := by
  simp [bucket, bucketLetter, bucketName, ge_iff_le, h, h']

theorem bucket_eq_rejected {s hired shortlist rejected : ℚ}
    (h : ¬ hired ≤ s) (h' : ¬ shortlist ≤ s) (h'' : s ≤ rejected) :
    bucket s hired shortlist rejected = "Rejected" := by
  simp [bucket, bucketLetter, bucketName, ge_iff_le, h, h', h'']

theorem bucket_eq_nondomain {s hired shortlist rejected : ℚ}
    (h : ¬ hired ≤ s) (h' : ¬ shortlist ≤ s) (h'' : ¬ s ≤ rejected) :
    bucket s hired shortlist rejected = "NonDomain" := by
  simp [bucket, bucketLetter, bucketName, ge_iff_le, h, h', h'']

/-- C1: with ordered thresholds the classifier returns exactly one of the four
labels, first match wins in the order Hired, Shortlisted, Rejected, NonDomain,
and at thresholds (0.75, 0.55, 0.30) the five quoted sample scores land in the
quoted buckets, the boundary 0.75 included. -/
theorem bucket_classifier_first_match_wins
    (s hired shortlist rejected : ℚ)
    (h1 : shortlist ≤ hired) (h2 : rejected ≤ shortlist) :
    (bucket s hired shortlist rejected = "Hired" ↔ hired ≤ s) ∧
    (bucket s hired shortlist rejected = "Shortlisted" ↔
      s < hired ∧ shortlist ≤ s) ∧
    (bucket s hired shortlist rejected = "Rejected" ↔
      s < shortlist ∧ s ≤ rejected) ∧
    (bucket s hired shortlist rejected = "NonDomain" ↔
      s < shortlist ∧ rejected < s) ∧
    (bucket 0.80 0.75 0.55 0.30 = "Hired" ∧
     bucket 0.60 0.75 0.55 0.30 = "Shortlisted" ∧
     bucket 0.40 0.75 0.55 0.30 = "NonDomain" ∧
     bucket 0.10 0.75 0.55 0.30 = "Rejected" ∧
     bucket 0.75 0.75 0.55 0.30 = "Hired") := by
  have main : ∀ t : ℚ,
      (bucket t hired shortlist rejected = "Hired" ↔ hired ≤ t) ∧
      (bucket t hired shortlist rejected = "Shortlisted" ↔
        t < hired ∧ shortlist ≤ t) ∧
      (bucket t hired shortlist rejected = "Rejected" ↔
        t < shortlist ∧ t ≤ rejected) ∧
      (bucket t hired shortlist rejected = "NonDomain" ↔
        t < shortlist ∧ rejected < t) := by
    intro t
    by_cases hA : hired ≤ t
    · rw [bucket_eq_hired hA]
      refine ⟨by simp [hA], ?_, ?_, ?_⟩ <;> simp <;> intros <;>
        first | linarith | (constructor <;> linarith)
    · by_cases hB : shortlist ≤ t
      · rw [bucket_eq_shortlisted hA hB]
        refine ⟨by simp [hA], by simp [hB, lt_of_not_le hA], ?_, ?_⟩ <;>
          simp <;> intros <;> first | linarith | (constructor <;> linarith)
      · by_cases hC : t ≤ rejected
        · rw [bucket_eq_rejected hA hB hC]
          refine ⟨by simp [hA], ?_, by simp [hC, lt_of_not_le hB], ?_⟩ <;>
            simp <;> intros <;> first | linarith | (constructor <;> linarith)
        · rw [bucket_eq_nondomain hA hB hC]
          refine ⟨by simp [hA], ?_, ?_,
            by simp [lt_of_not_le hB, lt_of_not_le hC]⟩ <;>
            simp <;> intros <;> first | linarith | (constructor <;> linarith)
  refine ⟨(main s).1, (main s).2.1, (main s).2.2.1, (main s).2.2.2, ?_⟩
  refine ⟨bucket_eq_hired (by norm_num), ?_, ?_, ?_,
    bucket_eq_hired (by norm_num)⟩
  · exact bucket_eq_shortlisted (by norm_num) (by norm_num)
  · exact bucket_eq_nondomain (by norm_num) (by norm_num) (by norm_num)
  · exact bucket_eq_rejected (by norm_num) (by norm_num) (by norm_num)

/-- Witness for C1 at score 0.80 with the configured thresholds. -/
theorem bucket_classifier_first_match_wins_witness :
    (0.55 : ℚ) ≤ 0.75 ∧ (0.30 : ℚ) ≤ 0.55 ∧
    (bucket 0.80 0.75 0.55 0.30 = "Hired" ↔ (0.75 : ℚ) ≤ 0.80) := by
  refine ⟨by norm_num, by norm_num, ?_⟩
  exact (bucket_classifier_first_match_wins 0.80 0.75 0.55 0.30
    (by norm_num) (by norm_num)).1

/-! ## Python string primitives

Strings are modelled as `List Char`.  The helpers below embed the Python
string operations the repository uses: `str.strip`, `str.find`,
`str.rfind`, substring containment (`in`), `str.split(sep, 1)` and
`str.replace(old, new, 1)`. -/

/-- The whitespace set of Python's default `str.strip`. -/
def isPySpace (c : Char) : Bool :=
  c = ' ' || c = '\t' || c = '\n' || c = '\r' || c = '\x0b' || c = '\x0c'

/-- Python `str.strip()`: drop whitespace from both ends. -/
def pyStrip (s : List Char) : List Char :=
  ((s.dropWhile isPySpace).reverse.dropWhile isPySpace).reverse

/-- Index of the first occurrence of the character `c`, if any
(Python `str.find` restricted to one-character needles). -/
def charFindAux (c : Char) : List Char → Option Nat
  | [] => none
  | d :: ds => if d = c then some 0 else (charFindAux c ds).map (· + 1)

/-- Index of the last occurrence of the character `c`, if any
(Python `str.rfind` restricted to one-character needles). -/
def charRFindAux (c : Char) : List Char → Option Nat
  | [] => none
  | d :: ds =>
    match charRFindAux c ds with
    | some i => some (i + 1)
    | none => if d = c then some 0 else none

/-- Index of the first occurrence of the substring `pat`, if any
(Python `str.find` on substrings; `find("") = 0` as in Python). -/
def subFindAux (pat : List Char) : List Char → Option Nat
  | [] => if pat.isEmpty then some 0 else none
  | c :: cs =>
    if pat.isPrefixOf (c :: cs) then some 0
    else (subFindAux pat cs).map (· + 1)

/-- Python `pat in s`. -/
def pyContains (s pat : List Char) : Bool :=
  (subFindAux pat s).isSome

/-- `s.split(pat, 1)[1]` when `pat` occurs in `s` (the part after the
first occurrence of `pat`). -/
def pySplitOnceTail (s pat : List Char) : List Char :=
  match subFindAux pat s with
  | some i => s.drop (i + pat.length)
  | none => s

/-- Python `s.replace(pat, rep, 1)`: replace the first occurrence only. -/
def pyReplaceFirst (s pat rep : List Char) : List Char :=
  match subFindAux pat s with
  | some i => s.take i ++ rep ++ s.drop (i + pat.length)
  | none => s

theorem charFindAux_eq_none (c : Char) (s : List Char) :
    c ∉ s → charFindAux c s = none := by
  induction s with
  | nil => intro _; rfl
  | cons d ds ih =>
    intro h
    simp only [List.mem_cons, not_or] at h
    simp [charFindAux, Ne.symm h.1, ih h.2]

theorem charFindAux_first (c : Char) (p q : List Char) (hp : c ∉ p) :
    charFindAux c (p ++ c :: q) = some p.length := by
  induction p with
  | nil => simp [charFindAux]
  | cons d ds ih =>
    simp only [List.mem_cons, not_or] at hp
    simp [charFindAux, Ne.symm hp.1, ih hp.2]

theorem charFindAux_append_of_not_mem (c : Char) (p r : List Char)
    (hp : c ∉ p) :
    charFindAux c (p ++ r) = (charFindAux c r).map (· + p.length) := by
  induction p with
  | nil => simp
  | cons d ds ih =>
    simp only [List.mem_cons, not_or] at hp
    have e : (d :: ds) ++ r = d :: (ds ++ r) := rfl
    rw [e]
    simp only [charFindAux]
    rw [if_neg (Ne.symm hp.1), ih hp.2]
    cases charFindAux c r with
    | none => rfl
    | some i => simp [Nat.add_assoc]

theorem charRFindAux_eq_none (c : Char) (s : List Char) :
    c ∉ s → charRFindAux c s = none := by
  induction s with
  | nil => intro _; rfl
  | cons d ds ih =>
    intro h
    simp only [List.mem_cons, not_or] at h
    simp [charRFindAux, ih h.2, Ne.symm h.1]

theorem charRFindAux_last (c : Char) (p q : List Char) (hq : c ∉ q) :
    charRFindAux c (p ++ c :: q) = some p.length := by
  induction p with
  | nil => simp [charRFindAux, charRFindAux_eq_none c q hq]
  | cons d ds ih => simp [charRFindAux, ih]

theorem charRFindAux_in_left (c : Char) (p r : List Char) (hr : c ∉ r) :
    charRFindAux c (p ++ r) = charRFindAux c p := by
  induction p with
  | nil =>
    simp only [List.nil_append, charRFindAux_eq_none c r hr]
    rfl
  | cons d ds ih => simp [charRFindAux, ih]

theorem subFindAux_eq_zero (pat s : List Char) (h : pat.isPrefixOf s) :
    subFindAux pat s = some 0 := by
  cases s with
  | nil =>
    cases pat with
    | nil => rfl
    | cons c cs => simp [List.isPrefixOf] at h
  | cons c cs => simp [subFindAux, h]

theorem subFindAux_min (pat : List Char) (pre suf s : List Char)
    (hs : s = pre ++ pat ++ suf)
    (hmin : ∀ p q, s = p ++ pat ++ q → pre.length ≤ p.length) :
    subFindAux pat s = some pre.length := by
  induction pre generalizing s suf with
  | nil =>
    subst hs
    simp only [List.nil_append, List.length_nil]
    exact subFindAux_eq_zero pat (pat ++ suf)
      ((List.isPrefixOf_iff_prefix).2 (List.prefix_append pat suf))
  | cons a pre' ih =>
    have hsplit : s = a :: (pre' ++ pat ++ suf) := by simp [hs]
    have hnp : ¬ pat.isPrefixOf (a :: (pre' ++ pat ++ suf)) = true := by
      intro hpre
      rcases (List.isPrefixOf_iff_prefix).1 hpre with ⟨t, ht⟩
      have h0 := hmin [] t (by rw [hsplit, ← ht]; simp)
      simp at h0
    have step : subFindAux pat (a :: (pre' ++ pat ++ suf))
        = (subFindAux pat (pre' ++ pat ++ suf)).map (· + 1) := by
      simp only [subFindAux]
      rw [if_neg hnp]
    have hm : ∀ p q, pre' ++ pat ++ suf = p ++ pat ++ q →
        pre'.length ≤ p.length := by
      intro p q hpq
      have h1 := hmin (a :: p) q (by rw [hsplit, hpq]; simp)
      simpa using Nat.le_of_succ_le_succ (by simpa using h1)
    rw [hsplit, step, ih suf (pre' ++ pat ++ suf) rfl hm]
    simp [Nat.add_comm]

theorem subFindAux_not_contains (pat s : List Char)
    (h : ∀ p q, s ≠ p ++ pat ++ q) : subFindAux pat s = none := by
  induction s with
  | nil =>
    have : ¬ pat.isEmpty := by
      cases pat with
      | nil => exact absurd rfl (h [] [])
      | cons c cs => simp
    simp [subFindAux, this]
  | cons c cs ih =>
    have h1 : ¬ pat.isPrefixOf (c :: cs) := by
      intro hpre
      rcases (List.isPrefixOf_iff_prefix).1 hpre with ⟨t, ht⟩
      exact h [] t (by simpa using ht.symm)
    have h2 : ∀ p q, cs ≠ p ++ pat ++ q := by
      intro p q hpq
      exact h (c :: p) q (by simp [hpq])
    simp [subFindAux, h1, ih h2]

/-! ## Unification id rewriting (`unify_resumes.py`, lines 94-100)

For every id in the batch (all ids start with the requested old prefix),
the script runs:
`if "_chunk" in old_id: suffix = old_id.split("_chunk",1)[1];`
`new_id = f"{to_id}_chunk{suffix}"`
`else: new_id = old_id.replace(from_pref, to_id, 1)`. -/

def chunkMarker : List Char := "_chunk".toList

/-- The `new_id` derivation of `unify_resumes.py` lines 94-100. -/
def newIdOf (oldPref toId oldId : List Char) : List Char :=
  if pyContains oldId chunkMarker then
    toId ++ chunkMarker ++ pySplitOnceTail oldId chunkMarker
  else
    pyReplaceFirst oldId oldPref toId

theorem marker_prefix_drop (m s p q : List Char) (h : s = p ++ m ++ q) :
    m.isPrefixOf (s.drop p.length) := by
  have : s.drop p.length = m ++ q := by
    rw [h, List.append_assoc, List.drop_left]
  rw [this]
  exact (List.isPrefixOf_iff_prefix).2 (List.prefix_append m q)

/-- C3: an id containing `_chunk` is rewritten to the target id plus
everything from the first `_chunk` on; an id with no `_chunk` marker gets
its leading old prefix literally replaced by the target id; and the two
quoted examples rewrite as quoted. -/
theorem unify_new_id_spec (oldPref toId oldId : List Char) :
    (∀ pre suf, oldId = pre ++ chunkMarker ++ suf →
      (∀ i, i < pre.length → ¬ chunkMarker.isPrefixOf (oldId.drop i)) →
      newIdOf oldPref toId oldId = toId ++ chunkMarker ++ suf) ∧
    ((∀ i, i ≤ oldId.length → ¬ chunkMarker.isPrefixOf (oldId.drop i)) →
      ∀ rest, oldId = oldPref ++ rest →
      newIdOf oldPref toId oldId = toId ++ rest) ∧
    (newIdOf "cand1".toList "cand_final".toList "cand1_chunk2_skills".toList
       = "cand_final_chunk2_skills".toList ∧
     newIdOf "cand1".toList "cand_final".toList "cand1".toList
       = "cand_final".toList) := by
  refine ⟨?_, ?_, by decide, by decide⟩
  · intro pre suf hdec hmin
    have hfind : subFindAux chunkMarker oldId = some pre.length := by
      apply subFindAux_min chunkMarker pre suf oldId hdec
      intro p q hpq
      by_contra hlt
      exact hmin p.length (by omega) (marker_prefix_drop _ _ _ _ hpq)
    have hcont : pyContains oldId chunkMarker = true := by
      simp [pyContains, hfind]
    have htail : pySplitOnceTail oldId chunkMarker = suf := by
      simp only [pySplitOnceTail, hfind]
      rw [hdec, ← List.length_append]
      exact List.drop_left (pre ++ chunkMarker) suf
    rw [newIdOf, if_pos hcont, htail]
  · intro hnone rest hrest
    have hfind : subFindAux chunkMarker oldId = none := by
      apply subFindAux_not_contains
      intro p q hpq
      have hle : p.length ≤ oldId.length := by
        rw [hpq]; simp
      exact hnone p.length hle (marker_prefix_drop _ _ _ _ hpq)
    have hcont : pyContains oldId chunkMarker = false := by
      simp [pyContains, hfind]
    have hfind2 : subFindAux oldPref oldId = some 0 := by
      apply subFindAux_eq_zero
      rw [hrest]
      exact (List.isPrefixOf_iff_prefix).2 (List.prefix_append oldPref rest)
    rw [newIdOf, if_neg (by simp [hcont]), pyReplaceFirst, hfind2]
    simp [hrest]

/-- Witness for C3 on the two quoted examples, hypotheses discharged by
evaluation. -/
theorem unify_new_id_spec_witness :
    newIdOf "cand1".toList "cand_final".toList "cand1_chunk2_skills".toList
      = "cand_final_chunk2_skills".toList ∧
    newIdOf "cand1".toList "cand_final".toList "cand1".toList
      = "cand_final".toList := by
  constructor
  · exact (unify_new_id_spec "cand1".toList "cand_final".toList
      "cand1_chunk2_skills".toList).1 "cand1".toList "2_skills".toList
      (by decide) (by decide)
  · exact (unify_new_id_spec "cand1".toList "cand_final".toList
      "cand1".toList).2.1 (by decide) "".toList (by decide)

/-! ## LLM output recovery (`inspect_jd.py`, `clean_gpt_response`, lines 67-88) -/

def fenceMarker : List Char := "```".toList

/-- `re.sub(r"^\x60\x60\x60[a-zA-Z]*\n?", "", txt)` applied to a `txt`
that starts with the fence: drop the three backticks, the greedy
alphabetic language tag, and one optional newline. -/
def stripLeadingFence (txt : List Char) : List Char :=
  let t := (txt.drop 3).dropWhile Char.isAlpha
  if t.head? = some '\n' then t.tail else t

/-- `re.sub(r"\n?\x60\x60\x60$", "", t)`; without `re.MULTILINE`, `$`
matches at the end of the string or just before a final newline. -/
def stripTrailingFence (t : List Char) : List Char :=
  let core := if t.getLast? = some '\n' then t.dropLast else t
  let tl : List Char := if t.getLast? = some '\n' then ['\n'] else []
  if ('\n' :: fenceMarker).isSuffixOf core then
    core.take (core.length - 4) ++ tl
  else if fenceMarker.isSuffixOf core then
    core.take (core.length - 3) ++ tl
  else t

/-- Python `s.find(c)`: first index, or `-1`. -/
def pyFind (s : List Char) (c : Char) : Int :=
  match charFindAux c s with
  | some i => (i : Int)
  | none => -1

/-- Python `s.rfind(c)`: last index, or `-1`. -/
def pyRFind (s : List Char) (c : Char) : Int :=
  match charRFindAux c s with
  | some i => (i : Int)
  | none => -1

/-- `min([pos for pos in (txt.find('['), txt.find('\x7b')) if pos != -1],
default=-1)` from `clean_gpt_response`. -/
def firstBrace (txt : List Char) : Int :=
  let pb := pyFind txt '['
  let pc := pyFind txt '\x7b'
  if pb = -1 then pc else if pc = -1 then pb else min pb pc

/-- `clean_gpt_response` of `inspect_jd.py`, lines 67-88. -/
def cleanGptResponse (raw : List Char) : List Char :=
  let txt := pyStrip raw
  if fenceMarker.isPrefixOf txt then
    pyStrip (stripTrailingFence (stripLeadingFence txt))
  else
    let fb := firstBrace txt
    if fb = -1 then txt
    else
      let lb := max (pyRFind txt '\x7d') (pyRFind txt ']')
      if lb = -1 then txt
      else (txt.take (lb.toNat + 1)).drop fb.toNat

theorem charRFindAux_lt_length (c : Char) (s : List Char) (k : Nat)
    (h : charRFindAux c s = some k) : k < s.length := by
  induction s generalizing k with
  | nil => simp [charRFindAux] at h
  | cons d ds ih =>
    rw [charRFindAux] at h
    cases hds : charRFindAux c ds with
    | some i =>
      rw [hds] at h
      simp only [Option.some.injEq] at h
      have := ih i hds
      simp [← h, List.length_cons]
      omega
    | none =>
      rw [hds] at h
      by_cases hd : d = c
      · simp [hd] at h
        simp [← h]
      · simp [hd] at h

theorem firstBrace_eq (txt p q : List Char) (o : Char)
    (ho : o = '\x7b' ∨ o = '[') (hdec : txt = p ++ o :: q)
    (h1 : '\x7b' ∉ p) (h2 : '[' ∉ p) :
    firstBrace txt = (p.length : Int) := by
  have key : ∀ (c c' : Char), c' ≠ c → c' ∉ p →
      pyFind (p ++ c :: q) c' = -1 ∨
      ∃ k : Nat, pyFind (p ++ c :: q) c' = ((k + 1 + p.length : Nat) : Int) := by
    intro c c' hne hnp
    rw [pyFind, charFindAux_append_of_not_mem c' p (c :: q) hnp]
    rw [charFindAux]
    rw [if_neg (Ne.symm hne)]
    cases charFindAux c' q with
    | none => left; rfl
    | some k =>
      right
      refine ⟨k, ?_⟩
      simp only [Option.map_map, Option.map_some, Function.comp_apply]
      norm_cast
  have self : ∀ c' : Char, c' ∉ p → pyFind (p ++ c' :: q) c' = (p.length : Int) := by
    intro c' hnp
    rw [pyFind, charFindAux_first c' p q hnp]
  rcases ho with ho | ho
  · subst ho
    have hc := self '\x7b' h1
    rw [hdec]
    rcases key '\x7b' '[' (by decide) h2 with hb | ⟨k, hb⟩ <;>
      · simp only [firstBrace, hb, hc]
        split_ifs <;>
          first
            | omega
            | simp_all
            | (simp only [inf_eq_min, min_def]; split_ifs <;> omega)
  · subst ho
    have hc := self '[' h2
    rw [hdec]
    rcases key '[' '\x7b' (by decide) h1 with hb | ⟨k, hb⟩ <;>
      · simp only [firstBrace, hb, hc]
        split_ifs <;>
          first
            | omega
            | simp_all
            | (simp only [inf_eq_min, min_def]; split_ifs <;> omega)

theorem lastClose_eq (txt p' q' : List Char) (e : Char)
    (he : e = '\x7d' ∨ e = ']') (hdec : txt = p' ++ e :: q')
    (h1 : '\x7d' ∉ q') (h2 : ']' ∉ q') :
    max (pyRFind txt '\x7d') (pyRFind txt ']') = (p'.length : Int) := by
  have self : ∀ c' : Char, c' ∉ q' → pyRFind (p' ++ c' :: q') c' = (p'.length : Int) := by
    intro c' hq
    rw [pyRFind, charRFindAux_last c' p' q' hq]
  have other : ∀ c' : Char, c' ≠ e → c' ∉ q' →
      pyRFind (p' ++ e :: q') c' = -1 ∨
      ∃ k : Nat, pyRFind (p' ++ e :: q') c' = (k : Int) ∧ k < p'.length := by
    intro c' hne hq
    have hnm : c' ∉ (e :: q') := by simp [hne, hq]
    rw [pyRFind, charRFindAux_in_left c' p' (e :: q') hnm]
    cases hk : charRFindAux c' p' with
    | none => left; rfl
    | some k =>
      right
      exact ⟨k, rfl, charRFindAux_lt_length c' p' k hk⟩
  rcases he with he | he
  · subst he
    have hc := self '\x7d' h1
    rw [hdec]
    rcases other ']' (by decide) h2 with hb | ⟨k, hb, hk⟩ <;>
      · rw [hb, hc]
        first
          | omega
          | (simp only [sup_eq_max, max_def]; split_ifs <;> omega)
  · subst he
    have hc := self ']' h2
    rw [hdec]
    rcases other '\x7d' (by decide) h1 with hb | ⟨k, hb, hk⟩ <;>
      · rw [hb, hc]
        first
          | omega
          | (simp only [sup_eq_max, max_def]; split_ifs <;> omega)

theorem dropWhile_append_of_all (p : Char → Bool) (l r : List Char)
    (h : ∀ c ∈ l, p c) : (l ++ r).dropWhile p = r.dropWhile p := by
  induction l with
  | nil => rfl
  | cons c cs ih =>
    simp only [List.cons_append, List.dropWhile_cons, h c (by simp)]
    exact ih (fun d hd => h d (by simp [hd]))

/-- C2 fails as stated: `clean_gpt_response` strips the input before the
bracket scan, so an input with surrounding whitespace and no bracket comes
back trimmed, not unchanged. -/
theorem clean_gpt_response_counterexample :
    cleanGptResponse " hello ".toList = "hello".toList ∧
    "hello".toList ≠ " hello ".toList := by
  constructor <;> decide

/-- C2 (amended): on the trimmed input `txt`: a fenced block
(backtick fence, alphabetic language tag, newline, body, newline, fence)
recovers the trimmed body; with no fence and no opening bracket the
trimmed text is returned (not the original input); with no fence, an
opening bracket first at index `p.length` and a closing bracket last at
index `pp.length`, the inclusive slice between them is returned. -/
theorem clean_gpt_response_spec (raw : List Char) :
    (∀ tag body, (∀ c ∈ tag, Char.isAlpha c) →
      pyStrip raw =
        fenceMarker ++ (tag ++ ('\n' :: (body ++ ('\n' :: fenceMarker)))) →
      cleanGptResponse raw = pyStrip body) ∧
    (¬ fenceMarker.isPrefixOf (pyStrip raw) →
      '\x7b' ∉ pyStrip raw → '[' ∉ pyStrip raw →
      cleanGptResponse raw = pyStrip raw) ∧
    (∀ p q pp qq (o e : Char), ¬ fenceMarker.isPrefixOf (pyStrip raw) →
      (o = '\x7b' ∨ o = '[') → (e = '\x7d' ∨ e = ']') →
      pyStrip raw = p ++ o :: q → '\x7b' ∉ p → '[' ∉ p →
      pyStrip raw = pp ++ e :: qq → '\x7d' ∉ qq → ']' ∉ qq →
      cleanGptResponse raw =
        ((pyStrip raw).take (pp.length + 1)).drop p.length) := by
  refine ⟨?_, ?_, ?_⟩
  · intro tag body htag hdec
    have hpre : fenceMarker.isPrefixOf (pyStrip raw) := by
      rw [List.isPrefixOf_iff_prefix, hdec]
      exact List.prefix_append _ _
    have hflen : fenceMarker.length = 3 := by decide
    have hlead : stripLeadingFence (pyStrip raw)
        = body ++ ('\n' :: fenceMarker) := by
      rw [stripLeadingFence]
      have hdrop : (pyStrip raw).drop 3
          = tag ++ ('\n' :: (body ++ ('\n' :: fenceMarker))) := by
        rw [hdec, ← hflen, List.drop_left]
      rw [hdrop, dropWhile_append_of_all Char.isAlpha tag _ htag]
      simp [List.dropWhile_cons]
    have htail : stripTrailingFence (body ++ ('\n' :: fenceMarker)) = body := by
      rw [stripTrailingFence]
      have hlast : (body ++ ('\n' :: fenceMarker)).getLast? ≠ some '\n' := by
        rw [List.getLast?_append_of_ne_nil body (by simp)]
        have : ('\n' :: fenceMarker) = ['\n'] ++ fenceMarker := rfl
        rw [this, List.getLast?_append_of_ne_nil _ (by decide)]
        decide
      have hsuf : ('\n' :: fenceMarker).isSuffixOf
          (body ++ ('\n' :: fenceMarker)) := by
        rw [List.isSuffixOf_iff_suffix]
        exact List.suffix_append _ _
      simp only [if_neg hlast, hsuf, if_pos]
      have hlen : (body ++ ('\n' :: fenceMarker)).length - 4 = body.length := by
        simp only [List.length_append, List.length_cons, hflen]
        omega
      rw [hlen]
      have : (body ++ ('\n' :: fenceMarker)).take body.length = body :=
        List.take_left body _
      simp [this]
    rw [cleanGptResponse]
    simp only [if_pos hpre]
    rw [hlead, htail]
  · intro hnf hnb hns
    rw [cleanGptResponse]
    simp only [if_neg hnf]
    have hb : firstBrace (pyStrip raw) = -1 := by
      rw [firstBrace, pyFind, pyFind,
        charFindAux_eq_none _ _ hns, charFindAux_eq_none _ _ hnb]
      decide
    simp [hb]
  · intro p q pp qq o e hnf ho he hdo hb1 hb2 hde hc1 hc2
    have hfb : firstBrace (pyStrip raw) = (p.length : Int) :=
      firstBrace_eq (pyStrip raw) p q o ho hdo hb1 hb2
    have hlb : max (pyRFind (pyStrip raw) '\x7d') (pyRFind (pyStrip raw) ']')
        = (pp.length : Int) :=
      lastClose_eq (pyStrip raw) pp qq e he hde hc1 hc2
    rw [cleanGptResponse]
    simp only [if_neg hnf, hfb, hlb]
    rw [if_neg (by omega), if_neg (by omega)]
    simp [Int.toNat_natCast]

/-- Witness for C2 (amended) on the prose-wrapped input
`"note [7] end"`: the bracket case applies and hypotheses evaluate. -/
theorem clean_gpt_response_spec_witness :
    cleanGptResponse "note [7] end".toList =
      ((pyStrip "note [7] end".toList).take ("note [7".toList.length + 1)).drop
        "note ".toList.length := by
  exact (clean_gpt_response_spec "note [7] end".toList).2.2
    "note ".toList "7] end".toList "note [7".toList " end".toList '[' ']'
    (by decide) (Or.inr rfl) (Or.inr rfl) (by decide) (by decide) (by decide)
    (by decide) (by decide) (by decide)

/-! ## Identity normalisation (`upload_to_pinecone.py`, lines 47-73)

`short_hex` is sha1-hexdigest truncation and the uuid strategy draws
`uuid.uuid4().hex`; both digit sources are external library calls and are
modelled as parameters that produce lowercase hex digits. -/

/-- The character class `[a-z0-9 _-]` kept by `slugify`'s `re.sub`. -/
def slugAllowed (c : Char) : Bool :=
  ('a' ≤ c && c ≤ 'z') || ('0' ≤ c && c ≤ '9') || c = ' ' || c = '_' || c = '-'

/-- Lowercase alphanumerics, underscore and hyphen: the characters the
produced identifiers can actually contain. -/
def idChar (c : Char) : Bool :=
  ('a' ≤ c && c ≤ 'z') || ('0' ≤ c && c ≤ '9') || c = '_' || c = '-'

/-- Lowercase hex digits, as produced by `hexdigest()` / `uuid4().hex`. -/
def isHexLower (c : Char) : Bool :=
  ('0' ≤ c && c ≤ '9') || ('a' ≤ c && c ≤ 'f')

/-- Python `str.split()` (split on whitespace runs, dropping empties). -/
def pyWordsAux : List Char → List Char → List (List Char)
  | [], cur => if cur.isEmpty then [] else [cur.reverse]
  | c :: cs, cur =>
    if isPySpace c then
      if cur.isEmpty then pyWordsAux cs [] else cur.reverse :: pyWordsAux cs []
    else pyWordsAux cs (c :: cur)

def pyWords (s : List Char) : List (List Char) := pyWordsAux s []

/-- Python `"_".join(ws)`. -/
def joinUnderscore : List (List Char) → List Char
  | [] => []
  | [w] => w
  | w :: ws => w ++ '_' :: joinUnderscore ws

/-- `slugify` of `upload_to_pinecone.py`:
`s = (text or "").strip().lower()`, `s = re.sub(r"[^a-z0-9 _-]", " ", s)`,
`return "_".join(s.split())[:64] or "section"`.  (`str.lower` is modelled
on ASCII; the character filter runs after it, so the identifier-charset
facts below do not depend on its behaviour on other characters.) -/
def slugify (text : List Char) : List Char :=
  let s0 := (pyStrip text).map Char.toLower
  let s1 := s0.map (fun c => if slugAllowed c then c else ' ')
  let t := (joinUnderscore (pyWords s1)).take 64
  if t.isEmpty then "section".toList else t

inductive IdMethod
  | uuid
  | email
  | name
  | content_hash

/-- Python `email.split('@')[0]`. -/
def takeBeforeChar (s : List Char) (c : Char) : List Char :=
  match charFindAux c s with
  | some i => s.take i
  | none => s

/-- `deterministic_candidate_id` of `upload_to_pinecone.py`.  `sha1hex`
stands for `hashlib.sha1(·).hexdigest()`, `uuidHex` for the
`uuid.uuid4().hex` draw; `email = none` models a missing or falsy email,
`name = []` a missing or empty candidate name, and `contentRaw` the
`full_text`-or-serialized-object fallback. -/
def deterministicCandidateId (sha1hex : List Char → List Char)
    (uuidHex : List Char) (name : List Char) (email : Option (List Char))
    (contentRaw : List Char) : IdMethod → List Char
  | .uuid => "resumes_".toList ++ uuidHex.take 12
  | .email =>
    match email with
    | some em =>
        "resumes_".toList ++
          slugify (if name.isEmpty then takeBeforeChar em '@' else name) ++
          '_' :: (sha1hex em).take 6
    | none => "resumes_".toList ++ uuidHex.take 12
  | .name =>
    if name.isEmpty then "resumes_".toList ++ uuidHex.take 12
    else "resumes_".toList ++ slugify name ++ '_' :: (sha1hex name).take 6
  | .content_hash => "resumes_".toList ++ (sha1hex contentRaw).take 6

def digitChar : Nat → Char
  | 0 => '0'
  | 1 => '1'
  | 2 => '2'
  | 3 => '3'
  | 4 => '4'
  | 5 => '5'
  | 6 => '6'
  | 7 => '7'
  | 8 => '8'
  | _ => '9'

/-- Decimal digits with a structural fuel argument. -/
def natDecimalAux : Nat → Nat → List Char
  | 0, _ => []
  | fuel + 1, n =>
    if n < 10 then [digitChar n]
    else natDecimalAux fuel (n / 10) ++ [digitChar (n % 10)]

/-- Decimal rendering of a chunk index, as the f-string interpolates it
(`n + 1` steps of fuel always suffice since the value shrinks tenfold each
step). -/
def natDecimal (n : Nat) : List Char := natDecimalAux (n + 1) n

/-- `build_vector_id`: `f"{candidate_id}_chunk{chunk_index}_{slugify(section)}"`. -/
def buildVectorId (cid : List Char) (chunkIndex : Nat) (sect : List Char) :
    List Char :=
  cid ++ "_chunk".toList ++ natDecimal chunkIndex ++ '_' :: slugify sect

theorem digitChar_range (k : Nat) : idChar (digitChar k) = true := by
  unfold digitChar
  split <;> decide

theorem natDecimalAux_chars (fuel : Nat) :
    ∀ n, ∀ c ∈ natDecimalAux fuel n, idChar c = true := by
  induction fuel with
  | zero => intro n c hc; simp [natDecimalAux] at hc
  | succ f ih =>
    intro n c hc
    rw [natDecimalAux] at hc
    split_ifs at hc with h
    · rw [List.mem_singleton] at hc
      rw [hc]
      exact digitChar_range n
    · rcases List.mem_append.1 hc with hc | hc
      · exact ih (n / 10) c hc
      · rw [List.mem_singleton] at hc
        rw [hc]
        exact digitChar_range (n % 10)

theorem natDecimal_chars (n : Nat) : ∀ c ∈ natDecimal n, idChar c = true :=
  natDecimalAux_chars (n + 1) n

theorem pyWordsAux_chars (Q : Char → Prop) :
    ∀ s cur, (∀ c ∈ cur, Q c) → (∀ c ∈ s, isPySpace c = false → Q c) →
    ∀ w ∈ pyWordsAux s cur, ∀ c ∈ w, Q c := by
  intro s
  induction s with
  | nil =>
    intro cur hcur _ w hw c hc
    rw [pyWordsAux] at hw
    split_ifs at hw with he
    · simp at hw
    · rw [List.mem_singleton] at hw
      exact hcur c (by rw [hw] at hc; exact List.mem_reverse.1 hc)
  | cons d ds ih =>
    intro cur hcur hs w hw c hc
    rw [pyWordsAux] at hw
    split_ifs at hw with hsp he
    · exact ih [] (by simp) (fun x hx hnx => hs x (by simp [hx]) hnx) w hw c hc
    · rcases List.mem_cons.1 hw with hw | hw
      · exact hcur c (by rw [hw] at hc; exact List.mem_reverse.1 hc)
      · exact ih [] (by simp) (fun x hx hnx => hs x (by simp [hx]) hnx) w hw c hc
    · refine ih (d :: cur) ?_ (fun x hx hnx => hs x (by simp [hx]) hnx) w hw c hc
      intro x hx
      rcases List.mem_cons.1 hx with hx | hx
      · exact hx ▸ hs d (by simp) (by simpa using hsp)
      · exact hcur x hx

theorem joinUnderscore_chars (Q : Char → Prop) (hund : Q '_') :
    ∀ ws, (∀ w ∈ ws, ∀ c ∈ w, Q c) → ∀ c ∈ joinUnderscore ws, Q c := by
  intro ws
  induction ws with
  | nil => intro _ c hc; simp [joinUnderscore] at hc
  | cons w ws ih =>
    intro hws c hc
    cases ws with
    | nil => exact hws w (by simp) c (by simpa [joinUnderscore] using hc)
    | cons w2 ws2 =>
      have hj : joinUnderscore (w :: w2 :: ws2)
          = w ++ '_' :: joinUnderscore (w2 :: ws2) := rfl
      rw [hj] at hc
      rcases List.mem_append.1 hc with hc | hc
      · exact hws w (by simp) c hc
      · rcases List.mem_cons.1 hc with hc | hc
        · exact hc ▸ hund
        · exact ih (fun x hx => hws x (by simp [hx])) c hc

theorem slugAllowed_nonspace_idChar (c : Char)
    (h1 : slugAllowed c = true) (h2 : isPySpace c = false) :
    idChar c = true := by
  simp only [slugAllowed, Bool.or_eq_true, Bool.and_eq_true,
    decide_eq_true_eq] at h1
  have h2' : ¬ (isPySpace c = true) := by simp [h2]
  simp only [isPySpace, Bool.or_eq_true, decide_eq_true_eq] at h2'
  push_neg at h2'
  simp only [idChar, Bool.or_eq_true, Bool.and_eq_true, decide_eq_true_eq]
  tauto

theorem slugify_chars (text : List Char) :
    ∀ c ∈ slugify text, idChar c = true := by
  intro c hc
  rw [slugify] at hc
  by_cases he :
      ((joinUnderscore (pyWords
        (((pyStrip text).map Char.toLower).map
          (fun c => if slugAllowed c then c else ' ')))).take 64).isEmpty
  · simp only [he, if_pos] at hc
    have hall : ∀ d ∈ "section".toList, idChar d = true := by decide
    exact hall c hc
  · simp only [he, if_neg, Bool.false_eq_true, not_false_eq_true] at hc
    have hc2 := List.mem_of_mem_take hc
    refine joinUnderscore_chars (fun d => idChar d = true) (by decide) _
      ?_ c hc2
    refine pyWordsAux_chars (fun d => idChar d = true) _ [] (by simp) ?_
    intro x hx hnx
    rcases List.mem_map.1 hx with ⟨y, _, hy⟩
    by_cases hya : slugAllowed y = true
    · rw [if_pos hya] at hy
      exact slugAllowed_nonspace_idChar x (hy ▸ hya) hnx
    · rw [if_neg hya] at hy
      rw [← hy] at hnx
      simp [isPySpace] at hnx

theorem slugify_length (text : List Char) : (slugify text).length ≤ 64 := by
  rw [slugify]
  split_ifs with he
  · decide
  · calc ((joinUnderscore (pyWords _)).take 64).length ≤ 64 :=
      List.length_take_le 64 _

theorem hexLower_idChar (c : Char) (h : isHexLower c = true) :
    idChar c = true := by
  simp only [isHexLower, Bool.or_eq_true, Bool.and_eq_true,
    decide_eq_true_eq] at h
  simp only [idChar, Bool.or_eq_true, Bool.and_eq_true, decide_eq_true_eq]
  rcases h with h | h
  · tauto
  · exact Or.inl (Or.inl (Or.inl ⟨le_trans (by decide) h.1,
      le_trans h.2 (by decide)⟩))

theorem resumes_chars : ∀ c ∈ "resumes_".toList, idChar c = true := by decide

theorem candidateId_chars (sha1hex : List Char → List Char)
    (uuidHex name contentRaw : List Char) (email : Option (List Char))
    (hhex : ∀ s c, c ∈ sha1hex s → isHexLower c = true)
    (huuid : ∀ c ∈ uuidHex, isHexLower c = true) (m : IdMethod) :
    ∀ c ∈ deterministicCandidateId sha1hex uuidHex name email contentRaw m,
      idChar c = true := by
  intro c hc
  cases m with
  | uuid =>
    simp only [deterministicCandidateId] at hc
    rcases List.mem_append.1 hc with h | h
    · exact resumes_chars c h
    · exact hexLower_idChar c (huuid c (List.mem_of_mem_take h))
  | email =>
    cases email with
    | some em =>
      simp only [deterministicCandidateId] at hc
      rcases List.mem_append.1 hc with h | h
      · rcases List.mem_append.1 h with h | h
        · exact resumes_chars c h
        · exact slugify_chars _ c h
      · rcases List.mem_cons.1 h with h | h
        · rw [h]; decide
        · exact hexLower_idChar c (hhex em c (List.mem_of_mem_take h))
    | none =>
      simp only [deterministicCandidateId] at hc
      rcases List.mem_append.1 hc with h | h
      · exact resumes_chars c h
      · exact hexLower_idChar c (huuid c (List.mem_of_mem_take h))
  | name =>
    simp only [deterministicCandidateId] at hc
    split_ifs at hc
    · rcases List.mem_append.1 hc with h | h
      · exact resumes_chars c h
      · exact hexLower_idChar c (huuid c (List.mem_of_mem_take h))
    · rcases List.mem_append.1 hc with h | h
      · rcases List.mem_append.1 h with h | h
        · exact resumes_chars c h
        · exact slugify_chars _ c h
      · rcases List.mem_cons.1 h with h | h
        · rw [h]; decide
        · exact hexLower_idChar c (hhex name c (List.mem_of_mem_take h))
  | content_hash =>
    simp only [deterministicCandidateId] at hc
    rcases List.mem_append.1 hc with h | h
    · exact resumes_chars c h
    · exact hexLower_idChar c (hhex contentRaw c (List.mem_of_mem_take h))

theorem candidateId_length (sha1hex : List Char → List Char)
    (uuidHex name contentRaw : List Char) (email : Option (List Char))
    (m : IdMethod) :
    (deterministicCandidateId sha1hex uuidHex name email contentRaw m).length
      ≤ 79 := by
  have h8 : ("resumes_".toList).length = 8 := by decide
  cases m with
  | uuid =>
    simp only [deterministicCandidateId, List.length_append, h8]
    have := List.length_take_le 12 uuidHex
    omega
  | email =>
    cases email with
    | some em =>
      simp only [deterministicCandidateId, List.length_append,
        List.length_cons, h8]
      have h1 := slugify_length
        (if name.isEmpty then takeBeforeChar em '@' else name)
      have h2 := List.length_take_le 6 (sha1hex em)
      omega
    | none =>
      simp only [deterministicCandidateId, List.length_append, h8]
      have := List.length_take_le 12 uuidHex
      omega
  | name =>
    simp only [deterministicCandidateId]
    split_ifs
    · simp only [List.length_append, h8]
      have := List.length_take_le 12 uuidHex
      omega
    · simp only [List.length_append, List.length_cons, h8]
      have h1 := slugify_length name
      have h2 := List.length_take_le 6 (sha1hex name)
      omega
  | content_hash =>
    simp only [deterministicCandidateId, List.length_append, h8]
    have := List.length_take_le 6 (sha1hex contentRaw)
    omega

/-- C4 (amended): every identifier the scheme produces consists of
lowercase alphanumerics, underscores and hyphens (the `[a-z0-9 _-]`
charset of `slugify` keeps hyphens); the name slug is truncated to 64
characters, which bounds the candidate id by 79 characters and the
vector-chunk id by 150 characters plus the chunk index's digits — not by
70. -/
theorem identifier_charset_and_bounds (sha1hex : List Char → List Char)
    (uuidHex name contentRaw : List Char) (email : Option (List Char))
    (hhex : ∀ s c, c ∈ sha1hex s → isHexLower c = true)
    (huuid : ∀ c ∈ uuidHex, isHexLower c = true)
    (m : IdMethod) (chunkIndex : Nat) (sect : List Char) :
    (∀ c ∈ deterministicCandidateId sha1hex uuidHex name email contentRaw m,
      idChar c = true) ∧
    (deterministicCandidateId sha1hex uuidHex name email contentRaw m).length
      ≤ 79 ∧
    (∀ c ∈ buildVectorId
        (deterministicCandidateId sha1hex uuidHex name email contentRaw m)
        chunkIndex sect, idChar c = true) ∧
    (buildVectorId
        (deterministicCandidateId sha1hex uuidHex name email contentRaw m)
        chunkIndex sect).length
      ≤ 150 + (natDecimal chunkIndex).length := by
  refine ⟨candidateId_chars sha1hex uuidHex name contentRaw email hhex huuid m,
    candidateId_length sha1hex uuidHex name contentRaw email m, ?_, ?_⟩
  · intro c hc
    simp only [buildVectorId] at hc
    rcases List.mem_append.1 hc with h | h
    · rcases List.mem_append.1 h with h | h
      · rcases List.mem_append.1 h with h | h
        · exact candidateId_chars sha1hex uuidHex name contentRaw email
            hhex huuid m c h
        · revert h
          have : ∀ d ∈ "_chunk".toList, idChar d = true := by decide
          exact fun h => this c h
      · exact natDecimal_chars chunkIndex c h
    · rcases List.mem_cons.1 h with h | h
      · rw [h]; decide
      · exact slugify_chars sect c h
  · simp only [buildVectorId, List.length_append, List.length_cons]
    have h1 := candidateId_length sha1hex uuidHex name contentRaw email m
    have h2 := slugify_length sect
    have h6 : ("_chunk".toList).length = 6 := by decide
    omega

/-- A fixed stand-in for `hashlib.sha1(·).hexdigest()` (40 lowercase hex
digits, as the real digest always is). -/
def hexStub : List Char → List Char :=
  fun _ => "0123456789abcdef0123456789abcdef01234567".toList

/-- A fixed stand-in draw of `uuid.uuid4().hex` (32 lowercase hex digits). -/
def uuidStub : List Char := "0123456789abcdef0123456789abcdef".toList

/-- A 70-character candidate name containing hyphens. -/
def longHyphenName : List Char :=
  "x-x-x-x-x-x-x-x-x-x-x-x-x-x-x-x-x-x-x-x-x-x-x-x-x-x-x-x-x-x-x-x-x-x-x-".toList

/-- C4 fails as stated: with the name strategy, a hyphenated name yields a
candidate id containing `-` (not in the claimed lowercase-alphanumeric-
underscore charset), 79 characters long, and a vector id 97 characters
long (not under ~70). -/
theorem identifier_charset_counterexample :
    '-' ∈ deterministicCandidateId hexStub uuidStub longHyphenName
      none [] IdMethod.name ∧
    (deterministicCandidateId hexStub uuidStub longHyphenName
      none [] IdMethod.name).length = 79 ∧
    (buildVectorId (deterministicCandidateId hexStub uuidStub longHyphenName
      none [] IdMethod.name) 0 "experience".toList).length = 97 := by
  refine ⟨by decide, by decide, by decide⟩

/-- Witness for C4 (amended) with the stub digit sources, the name
strategy, chunk index 3 and section "skills". -/
theorem identifier_charset_and_bounds_witness :
    (∀ c ∈ deterministicCandidateId hexStub uuidStub "alice".toList
      none [] IdMethod.name, idChar c = true) ∧
    (deterministicCandidateId hexStub uuidStub "alice".toList
      none [] IdMethod.name).length ≤ 79 ∧
    (∀ c ∈ buildVectorId (deterministicCandidateId hexStub uuidStub
        "alice".toList none [] IdMethod.name) 3 "skills".toList,
      idChar c = true) ∧
    (buildVectorId (deterministicCandidateId hexStub uuidStub
        "alice".toList none [] IdMethod.name) 3 "skills".toList).length
      ≤ 150 + (natDecimal 3).length := by
  have hx : ∀ (s : List Char) (c : Char), c ∈ hexStub s →
      isHexLower c = true := by
    intro s
    show ∀ c ∈ "0123456789abcdef0123456789abcdef01234567".toList,
      isHexLower c = true
    decide
  have hu : ∀ c ∈ uuidStub, isHexLower c = true := by decide
  exact identifier_charset_and_bounds hexStub uuidStub "alice".toList []
    none hx hu IdMethod.name 3 "skills".toList

/-! ## Unification run control flow (`unify_resumes.py`, lines 101-128)

The batch loop upserts each rewritten batch in order and `sys.exit(1)`s on
the first upsert failure (before any deletion).  After a fully successful
upsert phase, with `--delete-old` the script prompts and deletes the
original ids only when `confirm.strip() == "DELETE"`; any other stripped
input prints "Deletion aborted" and retains the old vectors. -/

inductive UnifyEvent
  | upserted (batch : List (List Char))
  | aborted
  | deleted (batch : List (List Char))
  | retained
deriving DecidableEq

/-- The upsert loop of `unify_resumes.py` (lines 101-113): the emitted
events, and whether the loop ran to completion. -/
def upsertPhase (upsertOk : List (List Char) → Bool) :
    List (List (List Char)) → List UnifyEvent × Bool
  | [] => ([], true)
  | b :: bs =>
    if upsertOk b then
      (UnifyEvent.upserted b :: (upsertPhase upsertOk bs).1,
        (upsertPhase upsertOk bs).2)
    else ([UnifyEvent.aborted], false)

/-- The whole run (lines 101-128): upsert phase, then the
confirmation-gated deletion of the old-id batches. -/
def unifyRun (upsertOk : List (List Char) → Bool)
    (newBatches oldBatches : List (List (List Char)))
    (deleteOld : Bool) (confirm : List Char) : List UnifyEvent :=
  let r := upsertPhase upsertOk newBatches
  if r.2 then
    r.1 ++
      (if deleteOld then
        (if pyStrip confirm = "DELETE".toList then
          oldBatches.map UnifyEvent.deleted
        else [UnifyEvent.retained])
      else [UnifyEvent.retained])
  else r.1

theorem upsertPhase_ok_iff (upsertOk : List (List Char) → Bool)
    (bs : List (List (List Char))) :
    (upsertPhase upsertOk bs).2 = true ↔ ∀ b ∈ bs, upsertOk b = true := by
  induction bs with
  | nil => simp [upsertPhase]
  | cons b bs ih =>
    rw [upsertPhase]
    split_ifs with h
    · simp [h, ih]
    · simp [h]

theorem upsertPhase_no_delete (upsertOk : List (List Char) → Bool)
    (bs : List (List (List Char))) (d : List (List Char)) :
    UnifyEvent.deleted d ∉ (upsertPhase upsertOk bs).1 := by
  induction bs with
  | nil => simp [upsertPhase]
  | cons b bs ih =>
    rw [upsertPhase]
    split_ifs with h
    · simp [ih]
    · simp

/-- C5 (amended): the run deletes an old-id batch only if every batch
upsert succeeded (a failed upsert ends the run with no deletion) and the
STRIPPED confirmation input equals "DELETE"; conversely a failed upsert,
or a stripped confirmation differing from "DELETE", leaves every old
batch undeleted.  (The claim's "exact literal" is amended: the script
compares `confirm.strip()`, so whitespace-padded inputs also confirm.) -/
theorem unify_delete_safeguard (upsertOk : List (List Char) → Bool)
    (newBatches oldBatches : List (List (List Char)))
    (deleteOld : Bool) (confirm : List Char) :
    (∀ d, UnifyEvent.deleted d ∈
        unifyRun upsertOk newBatches oldBatches deleteOld confirm →
      (∀ b ∈ newBatches, upsertOk b = true) ∧ deleteOld = true ∧
        pyStrip confirm = "DELETE".toList) ∧
    ((∃ b ∈ newBatches, upsertOk b = false) →
      ∀ d, UnifyEvent.deleted d ∉
        unifyRun upsertOk newBatches oldBatches deleteOld confirm) ∧
    (pyStrip confirm ≠ "DELETE".toList →
      ∀ d, UnifyEvent.deleted d ∉
        unifyRun upsertOk newBatches oldBatches deleteOld confirm) := by
  refine ⟨?_, ?_, ?_⟩
  · intro d hd
    rw [unifyRun] at hd
    split_ifs at hd with hok hdel hstr
    · rcases List.mem_append.1 hd with hd | hd
      · exact absurd hd (upsertPhase_no_delete upsertOk newBatches d)
      · exact ⟨(upsertPhase_ok_iff upsertOk newBatches).1 hok, hdel, hstr⟩
    · rcases List.mem_append.1 hd with hd | hd
      · exact absurd hd (upsertPhase_no_delete upsertOk newBatches d)
      · simp at hd
    · rcases List.mem_append.1 hd with hd | hd
      · exact absurd hd (upsertPhase_no_delete upsertOk newBatches d)
      · simp at hd
    · exact absurd hd (upsertPhase_no_delete upsertOk newBatches d)
  · intro hfail d hd
    rcases hfail with ⟨b, hb, hfb⟩
    have hno : ¬ ((upsertPhase upsertOk newBatches).2 = true) := by
      rw [upsertPhase_ok_iff]
      intro hall
      rw [hall b hb] at hfb
      cases hfb
    rw [unifyRun] at hd
    split_ifs at hd with hok <;>
      first
        | exact absurd hok hno
        | exact absurd hd (upsertPhase_no_delete upsertOk newBatches d)
  · intro hstr d hd
    rw [unifyRun] at hd
    split_ifs at hd <;>
      first
        | exact absurd hd (upsertPhase_no_delete upsertOk newBatches d)
        | ((rcases List.mem_append.1 hd with hd2 | hd2) <;>
            first
              | exact absurd hd2 (upsertPhase_no_delete upsertOk newBatches d)
              | simp at hd2
              | exact absurd
                  (by assumption : pyStrip confirm = "DELETE".toList) hstr)

/-- C5 fails as stated: the script compares the STRIPPED confirmation
with "DELETE", so the whitespace-padded input " DELETE " — which is not
the exact literal token — still triggers deletion of the old records. -/
theorem unify_delete_confirmation_counterexample :
    " DELETE ".toList ≠ "DELETE".toList ∧
    UnifyEvent.deleted ["old1".toList] ∈
      unifyRun (fun _ => true) [["new1".toList]] [["old1".toList]] true
        " DELETE ".toList := by
  constructor <;> decide

/-- Witness for C5 (amended): a run whose stripped confirmation is not
"DELETE" deletes nothing. -/
theorem unify_delete_safeguard_witness :
    pyStrip "no".toList ≠ "DELETE".toList ∧
    UnifyEvent.deleted ["o".toList] ∉
      unifyRun (fun _ => true) [["n".toList]] [["o".toList]] true
        "no".toList := by
  refine ⟨by decide, ?_⟩
  exact (unify_delete_safeguard (fun _ => true) [["n".toList]]
    [["o".toList]] true "no".toList).2.2 (by decide) ["o".toList]

/-! ## JSON decoding and post-parse normalisation
(`inspect_jd.py`, `safe_json_load` lines 90-103, `main` lines 257-266)

`json.loads` is an external library call, modelled as an abstract partial
parser `parse : List Char → Option Json`.  Parsed values are modelled by
`Json`; object field lists are the key-unique dicts `json.loads`
produces. -/

inductive Json
  | null
  | bool (b : Bool)
  | num (q : ℚ)
  | str (s : List Char)
  | arr (xs : List Json)
  | obj (fields : List (List Char × Json))

/-- Python truthiness of a parsed JSON value. -/
def jsonTruthy : Json → Bool
  | .null => false
  | .bool b => b
  | .num q => if q = 0 then false else true
  | .str s => !s.isEmpty
  | .arr xs => !xs.isEmpty
  | .obj fs => !fs.isEmpty

/-- `dict.get(k)`. -/
def objGet (fs : List (List Char × Json)) (k : List Char) : Option Json :=
  match fs with
  | [] => none
  | (k2, v) :: rest => if k2 = k then some v else objGet rest k

/-- Python `a or b` where `a` is `dict.get(k)` (missing key is `None`,
hence falsy). -/
def orTruthy (a : Option Json) (b : Json) : Json :=
  match a with
  | some v => if jsonTruthy v then v else b
  | none => b

def truthyOpt (a : Option Json) : Bool :=
  match a with
  | some v => jsonTruthy v
  | none => false

/-- The `parsed_list` normalisation of `inspect_jd.py` lines 257-266:
dict with truthy "evaluations" → that value; list → itself; other dict →
`parsed.get("results") or parsed.get("evaluations") or []`; anything
else → `[]`. -/
def normalizeParsed (parsed : Json) : Json :=
  match parsed with
  | .obj fs =>
    match objGet fs "evaluations".toList with
    | some v =>
      if jsonTruthy v then v
      else orTruthy (objGet fs "results".toList)
        (orTruthy (objGet fs "evaluations".toList) (.arr []))
    | none => orTruthy (objGet fs "results".toList)
        (orTruthy (objGet fs "evaluations".toList) (.arr []))
  | .arr xs => .arr xs
  | _ => .arr []

def lastIdxOf (c : Char) (l : List Char) : Nat :=
  match charRFindAux c l with
  | some k => k
  | none => 0

/-- `re.search(r'(\{.*\}|\[.*\])', s, re.DOTALL)`: the leftmost position
holding `\x7b` with a later `\x7d` (preferred) or `[` with a later `]`;
the greedy `.*` extends the match to the last such closer. -/
def salvage : List Char → Option (List Char)
  | [] => none
  | c :: rest =>
    if c = '\x7b' ∧ '\x7d' ∈ rest then
      some (c :: rest.take (lastIdxOf '\x7d' rest + 1))
    else if c = '[' ∧ ']' ∈ rest then
      some (c :: rest.take (lastIdxOf ']' rest + 1))
    else salvage rest

/-- `safe_json_load` of `inspect_jd.py` lines 90-103: strict parse of the
recovered text, then parse of the regex-salvaged block of the original
text, else the error propagates (re-`raise`). -/
def safeJsonLoad (parse : List Char → Option Json) (s : List Char) :
    Except Unit Json :=
  match parse (cleanGptResponse s) with
  | some v => .ok v
  | none =>
    match salvage s with
    | some t =>
      match parse t with
      | some v => .ok v
      | none => .error ()
    | none => .error ()

theorem charRFindAux_decomp (c : Char) (l : List Char) (k : Nat)
    (h : charRFindAux c l = some k) :
    ∃ a b, l = a ++ c :: b ∧ a.length = k := by
  induction l generalizing k with
  | nil => simp [charRFindAux] at h
  | cons d ds ih =>
    rw [charRFindAux] at h
    cases hds : charRFindAux c ds with
    | some i =>
      rw [hds] at h
      simp only [Option.some.injEq] at h
      rcases ih i hds with ⟨a, b, hab, hlen⟩
      exact ⟨d :: a, b, by simp [hab], by simp [hlen, ← h]⟩
    | none =>
      rw [hds] at h
      split_ifs at h with hd
      simp only [Option.some.injEq] at h
      exact ⟨[], ds, by simp [hd], by simp [← h]⟩

theorem take_succ_append (a : List Char) (x : Char) (b : List Char) :
    (a ++ x :: b).take (a.length + 1) = a ++ [x] := by
  induction a with
  | nil => simp
  | cons h t ih => simp [List.take_succ_cons, ih]

theorem charRFindAux_isSome (c : Char) (l : List Char) (h : c ∈ l) :
    ∃ k, charRFindAux c l = some k := by
  induction l with
  | nil => simp at h
  | cons d ds ih =>
    rw [charRFindAux]
    cases hds : charRFindAux c ds with
    | some i => exact ⟨i + 1, rfl⟩
    | none =>
      rcases List.mem_cons.1 h with h | h
      · exact ⟨0, by simp [← h]⟩
      · rcases ih h with ⟨k, hk⟩
        rw [hds] at hk
        cases hk

theorem salvage_shape (s t : List Char) (h : salvage s = some t) :
    ∃ pre suf, s = pre ++ t ++ suf ∧
      ((t.head? = some '\x7b' ∧ t.getLast? = some '\x7d') ∨
       (t.head? = some '[' ∧ t.getLast? = some ']')) := by
  induction s generalizing t with
  | nil => simp [salvage] at h
  | cons c rest ih =>
    rw [salvage] at h
    split_ifs at h with h1 h2
    · rcases h1 with ⟨hc, hm⟩
      obtain ⟨k, hk⟩ := charRFindAux_isSome '\x7d' rest hm
      rcases charRFindAux_decomp '\x7d' rest k hk with ⟨a, b, hab, hlen⟩
      have hli : lastIdxOf '\x7d' rest = k := by rw [lastIdxOf, hk]
      have ht : c :: rest.take (lastIdxOf '\x7d' rest + 1) = t :=
        Option.some.inj h
      have htake : rest.take (k + 1) = a ++ ['\x7d'] := by
        rw [hab, ← hlen]
        exact take_succ_append a _ b
      refine ⟨[], b, ?_, Or.inl ⟨?_, ?_⟩⟩
      · rw [← ht, hli, htake, hab]
        simp
      · rw [← ht, hc]
        rfl
      · rw [← ht, hli, htake]
        have hcc : c :: (a ++ ['\x7d']) = (c :: a) ++ ['\x7d'] := by simp
        rw [hcc, List.getLast?_concat]
    · rcases h2 with ⟨hc, hm⟩
      obtain ⟨k, hk⟩ := charRFindAux_isSome ']' rest hm
      rcases charRFindAux_decomp ']' rest k hk with ⟨a, b, hab, hlen⟩
      have hli : lastIdxOf ']' rest = k := by rw [lastIdxOf, hk]
      have ht : c :: rest.take (lastIdxOf ']' rest + 1) = t :=
        Option.some.inj h
      have htake : rest.take (k + 1) = a ++ [']'] := by
        rw [hab, ← hlen]
        exact take_succ_append a _ b
      refine ⟨[], b, ?_, Or.inr ⟨?_, ?_⟩⟩
      · rw [← ht, hli, htake, hab]
        simp
      · rw [← ht, hc]
        rfl
      · rw [← ht, hli, htake]
        have hcc : c :: (a ++ [']']) = (c :: a) ++ [']'] := by simp
        rw [hcc, List.getLast?_concat]
    · rcases ih t h with ⟨pre, suf, hps, hshape⟩
      exact ⟨c :: pre, suf, by simp [hps], hshape⟩

/-- C6 fails as stated in its normalisation tail: an object whose
"evaluations" value is truthy but NOT a list is passed through verbatim
(here the number 5), instead of normalising to the empty list as "every
other successfully parsed shape" would require. -/
theorem normalize_parsed_counterexample :
    normalizeParsed (Json.obj [("evaluations".toList, Json.num 5)])
      = Json.num 5 ∧
    Json.num 5 ≠ Json.arr [] := by
  refine ⟨rfl, ?_⟩
  intro h
  cases h

/-- C6 (amended): `safe_json_load` returns a value exactly when the strict
parse of the recovered text succeeds, or it fails and the parse of the
regex-salvaged block succeeds; it propagates the error exactly when both
fail; the salvaged block is a contiguous piece of the original text that
starts with an opening brace/bracket and ends with the matching closer;
there is no retry.  Normalisation: a dict's truthy "evaluations" value is
returned verbatim (list or not); a list is returned as is; any other dict
yields `get("results") or get("evaluations") or []`; every non-dict
non-list shape yields the empty list — never an error. -/
theorem safe_json_load_spec (parse : List Char → Option Json)
    (s : List Char) :
    (∀ v, safeJsonLoad parse s = Except.ok v ↔
      (parse (cleanGptResponse s) = some v ∨
        (parse (cleanGptResponse s) = none ∧
          ∃ t, salvage s = some t ∧ parse t = some v))) ∧
    (safeJsonLoad parse s = Except.error () ↔
      (parse (cleanGptResponse s) = none ∧
        ∀ t, salvage s = some t → parse t = none)) ∧
    (∀ t, salvage s = some t → ∃ pre suf, s = pre ++ t ++ suf ∧
      ((t.head? = some '\x7b' ∧ t.getLast? = some '\x7d') ∨
       (t.head? = some '[' ∧ t.getLast? = some ']'))) ∧
    (∀ fs v, objGet fs "evaluations".toList = some v → jsonTruthy v = true →
      normalizeParsed (Json.obj fs) = v) ∧
    (∀ xs, normalizeParsed (Json.arr xs) = Json.arr xs) ∧
    (∀ fs, truthyOpt (objGet fs "evaluations".toList) = false →
      normalizeParsed (Json.obj fs) =
        orTruthy (objGet fs "results".toList)
          (orTruthy (objGet fs "evaluations".toList) (Json.arr []))) ∧
    (normalizeParsed Json.null = Json.arr [] ∧
      (∀ b, normalizeParsed (Json.bool b) = Json.arr []) ∧
      (∀ q, normalizeParsed (Json.num q) = Json.arr []) ∧
      (∀ st, normalizeParsed (Json.str st) = Json.arr [])) := by
  refine ⟨?_, ?_, salvage_shape s, ?_, fun xs => rfl, ?_,
    rfl, fun b => rfl, fun q => rfl, fun st => rfl⟩
  · intro v
    cases hp : parse (cleanGptResponse s) with
    | some w => simp [safeJsonLoad, hp]
    | none =>
      cases hs2 : salvage s with
      | none => simp [safeJsonLoad, hp, hs2]
      | some t =>
        cases hp2 : parse t with
        | some w => simp [safeJsonLoad, hp, hs2, hp2]
        | none => simp [safeJsonLoad, hp, hs2, hp2]
  · cases hp : parse (cleanGptResponse s) with
    | some w => simp [safeJsonLoad, hp]
    | none =>
      cases hs2 : salvage s with
      | none => simp [safeJsonLoad, hp, hs2]
      | some t =>
        cases hp2 : parse t with
        | some w => simp [safeJsonLoad, hp, hs2, hp2]
        | none => simp [safeJsonLoad, hp, hs2, hp2]
  · intro fs v hget htr
    simp only [normalizeParsed]
    rw [hget]
    simp [htr]
  · intro fs hfal
    simp only [normalizeParsed]
    cases hget : objGet fs "evaluations".toList with
    | none => rfl
    | some v =>
      rw [hget] at hfal
      simp only [truthyOpt] at hfal
      simp [hfal]

/-- Witness for C6 (amended) with a concrete parser and input: the
salvage path recovers `[1]` from prose, and a truthy "evaluations" object
normalises to its value. -/
theorem safe_json_load_spec_witness :
    (safeJsonLoad
        (fun l => if l = "[1]".toList then some (Json.arr [Json.num 1])
          else none)
        "no json here".toList = Except.error ()) ∧
    normalizeParsed (Json.obj [("evaluations".toList,
        Json.arr [Json.num 1])]) = Json.arr [Json.num 1] := by
  constructor
  · have hcl : ¬ (cleanGptResponse "no json here".toList = "[1]".toList) := by
      decide
    have hsal : salvage "no json here".toList = none := by decide
    exact (safe_json_load_spec
      (fun l => if l = "[1]".toList then some (Json.arr [Json.num 1])
        else none) "no json here".toList).2.1.2
      ⟨by rw [if_neg hcl], fun t ht => by rw [hsal] at ht; cases ht⟩
  · exact (safe_json_load_spec (fun _ => none) "".toList).2.2.2.1
      [("evaluations".toList, Json.arr [Json.num 1])]
      (Json.arr [Json.num 1]) rfl rfl

/-! ## Candidate aggregation (`list_candidate_vectors.py`, lines 33-44)

The script builds `mapping` by iterating the fetched vectors in order and
running `mapping.setdefault(cid, []).append(vid)` with
`cid = (meta or \x7b\x7d).get("candidate_id") or vid.split("_chunk")[0]`,
then prints `sorted(mapping.items(), key=lambda x: len(x[1]),
reverse=True)`.  Python dicts preserve insertion order and `sorted` is
stable. -/

/-- `vid.split("_chunk")[0]`: the part before the first `_chunk`. -/
def takeBeforeMarker (s : List Char) : List Char :=
  match subFindAux chunkMarker s with
  | some i => s.take i
  | none => s

structure VecEntry where
  vid : List Char
  meta : Option (List Char)

/-- `(meta or \x7b\x7d).get("candidate_id") or vid.split("_chunk")[0]`:
a missing or empty (falsy) metadata value falls back to the id prefix. -/
def cidOf (e : VecEntry) : List Char :=
  match e.meta with
  | some m => if m.isEmpty then takeBeforeMarker e.vid else m
  | none => takeBeforeMarker e.vid

/-- `mapping.setdefault(cid, []).append(vid)` on an insertion-ordered
association list. -/
def addToGroups (groups : List (List Char × List (List Char)))
    (cid vid : List Char) : List (List Char × List (List Char)) :=
  match groups with
  | [] => [(cid, [vid])]
  | (k, vs) :: rest =>
    if k = cid then (k, vs ++ [vid]) :: rest
    else (k, vs) :: addToGroups rest cid vid

def buildGroupsAux (acc : List (List Char × List (List Char))) :
    List VecEntry → List (List Char × List (List Char))
  | [] => acc
  | e :: es => buildGroupsAux (addToGroups acc (cidOf e) e.vid) es

/-- The grouping loop of `list_candidate_vectors.py`. -/
def buildGroups (es : List VecEntry) : List (List Char × List (List Char)) :=
  buildGroupsAux [] es

/-- Stable insertion for a descending-count order: walk past strictly
larger counts, insert before the first equal-or-smaller one. -/
def insertByCountDesc (g : List Char × List (List Char)) :
    List (List Char × List (List Char)) →
    List (List Char × List (List Char))
  | [] => [g]
  | h :: t =>
    if g.2.length < h.2.length then h :: insertByCountDesc g t
    else g :: h :: t

/-- `sorted(..., key=lambda x: len(x[1]), reverse=True)` (stable). -/
def sortByCountDesc : List (List Char × List (List Char)) →
    List (List Char × List (List Char))
  | [] => []
  | g :: gs => insertByCountDesc g (sortByCountDesc gs)

/-- The whole summary the script prints: grouped, then sorted by count
descending. -/
def candidateSummary (es : List VecEntry) :
    List (List Char × List (List Char)) :=
  sortByCountDesc (buildGroups es)

/-- First-appearance order of candidate ids. -/
def collectKeys (ks : List (List Char)) : List VecEntry → List (List Char)
  | [] => ks
  | e :: es =>
    if cidOf e ∈ ks then collectKeys ks es
    else collectKeys (ks ++ [cidOf e]) es

/-- The ids of the entries with candidate id `k`, in ingestion order. -/
def idsOf (k : List Char) (es : List VecEntry) : List (List Char) :=
  (es.filter (fun e => decide (cidOf e = k))).map VecEntry.vid

theorem idsOf_cons (k : List Char) (e : VecEntry) (es : List VecEntry) :
    idsOf k (e :: es) =
      if cidOf e = k then e.vid :: idsOf k es else idsOf k es := by
  rw [idsOf, List.filter_cons]
  by_cases h : cidOf e = k
  · simp [h, idsOf]
  · simp [h, idsOf]

theorem addToGroups_mem (ks : List (List Char))
    (f : List Char → List (List Char)) (c v : List Char)
    (hc : c ∈ ks) (hnd : ks.Nodup) :
    addToGroups (ks.map fun k => (k, f k)) c v
      = ks.map (fun k => (k, if k = c then f k ++ [v] else f k)) := by
  induction ks with
  | nil => simp at hc
  | cons k ks ih =>
    rw [List.map_cons, addToGroups]
    by_cases hk : k = c
    · rw [if_pos hk, hk, List.map_cons, if_pos rfl]
      have hcn : c ∉ ks := by
        rw [hk] at hnd
        exact (List.nodup_cons.1 hnd).1
      congr 1
      apply List.map_congr_left
      intro x hx
      rw [if_neg (by intro he; exact hcn (he ▸ hx))]
    · rw [if_neg hk, List.map_cons, if_neg hk]
      have hc2 : c ∈ ks := by
        rcases List.mem_cons.1 hc with h | h
        · exact absurd h.symm hk
        · exact h
      rw [ih hc2 (List.nodup_cons.1 hnd).2]

theorem addToGroups_not_mem (ks : List (List Char))
    (f : List Char → List (List Char)) (c v : List Char) (hc : c ∉ ks) :
    addToGroups (ks.map fun k => (k, f k)) c v
      = ks.map (fun k => (k, f k)) ++ [(c, [v])] := by
  induction ks with
  | nil => rfl
  | cons k ks ih =>
    have hk : k ≠ c := fun he => hc (by simp [he])
    rw [List.map_cons, addToGroups, if_neg hk]
    rw [ih (fun h => hc (by simp [h]))]
    rfl

theorem buildGroupsAux_spec (es : List VecEntry) :
    ∀ (ks : List (List Char)) (f : List Char → List (List Char)),
      ks.Nodup →
      buildGroupsAux (ks.map (fun k => (k, f k))) es =
        (collectKeys ks es).map (fun k =>
          (k, (if k ∈ ks then f k else []) ++ idsOf k es)) := by
  induction es with
  | nil =>
    intro ks f hnd
    rw [buildGroupsAux, collectKeys]
    apply List.map_congr_left
    intro k hk
    simp [hk, idsOf]
  | cons e rest ih =>
    intro ks f hnd
    by_cases hc : cidOf e ∈ ks
    · rw [buildGroupsAux, addToGroups_mem ks f (cidOf e) e.vid hc hnd,
        ih ks _ hnd, collectKeys, if_pos hc]
      apply List.map_congr_left
      intro k hk
      by_cases hke : k = cidOf e
      · rw [hke]
        simp [hc, idsOf_cons, List.append_assoc]
      · simp only [if_neg hke, idsOf_cons,
          if_neg (fun h => hke (Eq.symm h))]
    · rw [buildGroupsAux, addToGroups_not_mem ks f (cidOf e) e.vid hc]
      have hmap : ks.map (fun k => (k, f k)) ++ [(cidOf e, [e.vid])]
          = (ks ++ [cidOf e]).map
              (fun k => (k, if k = cidOf e then [e.vid] else f k)) := by
        rw [List.map_append]
        congr 1
        · apply List.map_congr_left
          intro x hx
          rw [if_neg (by intro he; exact hc (he ▸ hx))]
        · simp
      rw [hmap, ih (ks ++ [cidOf e]) _ (by
        rw [List.nodup_append]
        exact ⟨hnd, List.nodup_singleton _, by simpa using hc⟩)]
      rw [collectKeys, if_neg hc]
      apply List.map_congr_left
      intro k hk
      by_cases hke : k = cidOf e
      · rw [hke]
        simp [hc, idsOf_cons]
      · have hks : (k ∈ ks ++ [cidOf e]) = (k ∈ ks) := by
          simp [List.mem_append, hke]
        simp only [hks, if_neg hke, idsOf_cons,
          if_neg (fun h => hke (Eq.symm h))]

theorem insertByCountDesc_perm (g : List Char × List (List Char))
    (l : List (List Char × List (List Char))) :
    (insertByCountDesc g l).Perm (g :: l) := by
  induction l with
  | nil => exact List.Perm.refl _
  | cons h t ih =>
    rw [insertByCountDesc]
    split_ifs with hlt
    · exact (List.Perm.cons h ih).trans (List.Perm.swap g h t)
    · exact List.Perm.refl _

theorem sortByCountDesc_perm (l : List (List Char × List (List Char))) :
    (sortByCountDesc l).Perm l := by
  induction l with
  | nil => exact List.Perm.refl _
  | cons g gs ih =>
    rw [sortByCountDesc]
    exact (insertByCountDesc_perm g _).trans (List.Perm.cons g ih)

theorem insertByCountDesc_pairwise (g : List Char × List (List Char))
    (l : List (List Char × List (List Char)))
    (hl : l.Pairwise (fun a b => b.2.length ≤ a.2.length)) :
    (insertByCountDesc g l).Pairwise (fun a b => b.2.length ≤ a.2.length) := by
  induction l with
  | nil => simp [insertByCountDesc]
  | cons h t ih =>
    rcases List.pairwise_cons.1 hl with ⟨hh, ht⟩
    rw [insertByCountDesc]
    split_ifs with hlt
    · rw [List.pairwise_cons]
      refine ⟨?_, ih ht⟩
      intro x hx
      rcases List.mem_cons.1 ((insertByCountDesc_perm g t).mem_iff.1 hx)
        with hx | hx
      · rw [hx]
        exact le_of_lt hlt
      · exact hh x hx
    · rw [List.pairwise_cons]
      refine ⟨?_, hl⟩
      intro x hx
      rcases List.mem_cons.1 hx with hx | hx
      · rw [hx]
        exact le_of_not_lt hlt
      · exact le_trans (hh x hx) (le_of_not_lt hlt)

theorem sortByCountDesc_pairwise (l : List (List Char × List (List Char))) :
    (sortByCountDesc l).Pairwise (fun a b => b.2.length ≤ a.2.length) := by
  induction l with
  | nil => simp [sortByCountDesc]
  | cons g gs ih =>
    rw [sortByCountDesc]
    exact insertByCountDesc_pairwise g _ ih

/-- C9: the summary is a permutation of the partition of the entries by
candidate id — first-appearance key order, each group holding exactly
that candidate's chunk ids in their original ingestion order (a filter of
the input, never re-sorted) — listed in descending order of chunk count;
and the three quoted chunks aggregate to group "x" (count 2) before group
"y" (count 1). -/
theorem candidate_aggregator_spec (entries : List VecEntry) :
    (candidateSummary entries).Perm
      ((collectKeys [] entries).map (fun k => (k, idsOf k entries))) ∧
    (candidateSummary entries).Pairwise
      (fun a b => b.2.length ≤ a.2.length) ∧
    candidateSummary
        [⟨"x_chunk1_summary".toList, some "x".toList⟩,
         ⟨"x_chunk2_skills".toList, some "x".toList⟩,
         ⟨"y_chunk1_summary".toList, some "y".toList⟩] =
      [("x".toList, ["x_chunk1_summary".toList, "x_chunk2_skills".toList]),
       ("y".toList, ["y_chunk1_summary".toList])] := by
  refine ⟨?_, sortByCountDesc_pairwise _, by decide⟩
  have hb : buildGroups entries =
      (collectKeys [] entries).map (fun k => (k, idsOf k entries)) := by
    have h0 := buildGroupsAux_spec entries [] (fun _ => []) List.nodup_nil
    rw [buildGroups]
    rw [show ([] : List (List Char × List (List Char)))
      = ([] : List (List Char)).map (fun k => (k, (fun _ => ([] : List (List Char))) k)) from rfl]
    rw [h0]
    apply List.map_congr_left
    intro k hk
    simp
  rw [candidateSummary, hb]
  exact sortByCountDesc_perm _

/-! ## Similarity scorer (`match_candidates_llm_v2.py`, `cosine_sim`,
lines 32-48)

Float arithmetic is modelled by exact real arithmetic.  The pure-Python
fallback path is embedded literally: `dot = sum(x*y for x,y in zip(a,b))`
(`zip` truncates to the shorter list), full-vector norms, `-1.0` when an
input is `None` or a norm is `0`.  The numpy path computes the same
formula for equal-length vectors (and raises on unequal lengths). -/

def dotL (a b : List ℝ) : ℝ := ((a.zip b).map (fun p => p.1 * p.2)).sum

def sumSq (a : List ℝ) : ℝ := (a.map (fun x => x * x)).sum

noncomputable def normL (a : List ℝ) : ℝ := Real.sqrt (sumSq a)

noncomputable def cosineSim (a b : Option (List ℝ)) : ℝ :=
  match a, b with
  | none, _ => -1
  | _, none => -1
  | some a, some b =>
    if normL a = 0 ∨ normL b = 0 then -1
    else dotL a b / (normL a * normL b)

theorem sumSq_nonneg (a : List ℝ) : 0 ≤ sumSq a := by
  apply List.sum_nonneg
  intro x hx
  rcases List.mem_map.1 hx with ⟨y, _, hy⟩
  rw [← hy]
  exact mul_self_nonneg y

theorem normL_nonneg (a : List ℝ) : 0 ≤ normL a := Real.sqrt_nonneg _

theorem normL_eq_zero_iff (a : List ℝ) : normL a = 0 ↔ sumSq a = 0 := by
  rw [normL, Real.sqrt_eq_zero']
  constructor
  · intro h
    exact le_antisymm h (sumSq_nonneg a)
  · intro h
    rw [h]

theorem dotL_nil_right (a : List ℝ) : dotL a [] = 0 := by
  simp [dotL]

theorem dotL_cons (x y : ℝ) (a b : List ℝ) :
    dotL (x :: a) (y :: b) = x * y + dotL a b := by
  simp [dotL]

theorem dotL_comm (a b : List ℝ) : dotL a b = dotL b a := by
  induction a generalizing b with
  | nil => simp [dotL]
  | cons x a ih =>
    cases b with
    | nil => simp [dotL]
    | cons y b => rw [dotL_cons, dotL_cons, ih, mul_comm]

theorem dotL_self (a : List ℝ) : dotL a a = sumSq a := by
  induction a with
  | nil => simp [dotL, sumSq]
  | cons x a ih => rw [dotL_cons, ih]; simp [sumSq]

theorem sumSq_cons (x : ℝ) (a : List ℝ) :
    sumSq (x :: a) = x * x + sumSq a := by
  simp [sumSq]

theorem quad_expand (a : List ℝ) :
    ∀ b : List ℝ, a.length = b.length → ∀ t : ℝ,
      sumSq (List.zipWith (fun x y => t * x + y) a b)
        = sumSq a * (t * t) + 2 * dotL a b * t + sumSq b := by
  induction a with
  | nil =>
    intro b hb t
    cases b with
    | nil => simp [sumSq, dotL]
    | cons y b => simp at hb
  | cons x a ih =>
    intro b hb t
    cases b with
    | nil => simp at hb
    | cons y b =>
      rw [List.zipWith_cons_cons, sumSq_cons, sumSq_cons, sumSq_cons,
        dotL_cons, ih b (by simpa using hb) t]
      ring

theorem dotL_sq_le (a b : List ℝ) (h : a.length = b.length) :
    dotL a b * dotL a b ≤ sumSq a * sumSq b := by
  have hq : ∀ t : ℝ,
      0 ≤ sumSq a * (t * t) + (2 * dotL a b) * t + sumSq b := by
    intro t
    have h1 := sumSq_nonneg (List.zipWith (fun x y => t * x + y) a b)
    rw [quad_expand a b h t] at h1
    linarith
  have hd := discrim_le_zero hq
  rw [discrim] at hd
  nlinarith [hd]

theorem abs_dotL_le (a b : List ℝ) (h : a.length = b.length) :
    |dotL a b| ≤ normL a * normL b := by
  have h1 : |dotL a b| = Real.sqrt (dotL a b * dotL a b) := by
    rw [show dotL a b * dotL a b = dotL a b ^ 2 by ring,
      Real.sqrt_sq_eq_abs]
  rw [h1, normL, normL, ← Real.sqrt_mul (sumSq_nonneg a)]
  exact Real.sqrt_le_sqrt (dotL_sq_le a b h)

/-- C7: for equal-length vectors the scorer returns
`dot / (norm · norm)`, which lies in [-1, 1]; a missing (`None`) vector or
a zero-magnitude vector yields the sentinel -1.0 instead of a failure,
and the returned value is always within [-1, 1]. -/
theorem cosine_sim_contract (a b : List ℝ) (h : a.length = b.length) :
    (∀ v : Option (List ℝ), cosineSim none v = -1 ∧ cosineSim v none = -1) ∧
    ((normL a = 0 ∨ normL b = 0) → cosineSim (some a) (some b) = -1) ∧
    (normL a ≠ 0 → normL b ≠ 0 →
      cosineSim (some a) (some b) = dotL a b / (normL a * normL b)) ∧
    (-1 ≤ cosineSim (some a) (some b) ∧ cosineSim (some a) (some b) ≤ 1) := by
  refine ⟨?_, ?_, ?_, ?_⟩
  · intro v
    constructor
    · cases v <;> rfl
    · cases v <;> rfl
  · intro hz
    simp [cosineSim, hz]
  · intro ha hb
    simp [cosineSim, ha, hb]
  · by_cases hz : normL a = 0 ∨ normL b = 0
    · simp only [cosineSim, if_pos hz]
      norm_num
    · push_neg at hz
      have hpos : 0 < normL a * normL b := by
        rcases lt_of_le_of_ne (normL_nonneg a) (Ne.symm hz.1) with ha2
        rcases lt_of_le_of_ne (normL_nonneg b) (Ne.symm hz.2) with hb2
        exact mul_pos ha2 hb2
      have habs := abs_dotL_le a b h
      have hcos : cosineSim (some a) (some b)
          = dotL a b / (normL a * normL b) := by
        simp [cosineSim, hz.1, hz.2]
      rw [hcos]
      rw [abs_le] at habs
      constructor
      · rw [le_div_iff hpos]
        linarith [habs.1]
      · rw [div_le_one hpos]
        exact habs.2

/-- Witness for C7 at the orthogonal pair ([1,0], [0,1]). -/
theorem cosine_sim_contract_witness :
    -1 ≤ cosineSim (some [(1:ℝ), 0]) (some [0, 1]) ∧
    cosineSim (some [(1:ℝ), 0]) (some [0, 1]) ≤ 1 :=
  (cosine_sim_contract [(1:ℝ), 0] [0, 1] rfl).2.2.2

theorem sumSq_pos_of_nonzero (a : List ℝ) (hx : ∃ x ∈ a, x ≠ 0) :
    0 < sumSq a := by
  rcases hx with ⟨x, hmem, hne⟩
  have hle : x * x ≤ sumSq a := by
    apply List.single_le_sum
    · intro y hy
      rcases List.mem_map.1 hy with ⟨z, _, hz⟩
      rw [← hz]
      exact mul_self_nonneg z
    · exact List.mem_map.2 ⟨x, hmem, rfl⟩
  have : 0 < x * x := mul_self_pos.2 hne
  linarith

/-- C8: the scorer is symmetric in its two vectors, and a vector with a
non-zero component has self-similarity exactly 1. -/
theorem cosine_sim_symm_self (a b : List ℝ) (h : a.length = b.length) :
    cosineSim (some a) (some b) = cosineSim (some b) (some a) ∧
    ((∃ x ∈ a, x ≠ 0) → cosineSim (some a) (some a) = 1) := by
  constructor
  · by_cases hz : normL a = 0 ∨ normL b = 0
    · have hz2 : normL b = 0 ∨ normL a = 0 := hz.symm
      simp [cosineSim, hz, hz2]
    · have hz2 : ¬ (normL b = 0 ∨ normL a = 0) := fun h2 => hz h2.symm
      push_neg at hz hz2
      simp only [cosineSim, hz.1, hz.2, or_self, if_neg, false_or,
        or_false]
      rw [if_neg (by simp [hz.1, hz.2]), if_neg (by simp [hz.1, hz.2])]
      rw [dotL_comm, mul_comm]
  · intro hx
    have hpos := sumSq_pos_of_nonzero a hx
    have hn : normL a ≠ 0 := by
      rw [Ne, normL_eq_zero_iff]
      linarith
    have : cosineSim (some a) (some a) = dotL a a / (normL a * normL a) := by
      simp [cosineSim, hn]
    rw [this, dotL_self, normL, Real.mul_self_sqrt (sumSq_nonneg a)]
    exact div_self (by linarith)

/-- Witness for C8 at the vectors [1,2] and [3,4], and self-vector [1]. -/
theorem cosine_sim_symm_self_witness :
    cosineSim (some [(1:ℝ), 2]) (some [3, 4])
      = cosineSim (some [(3:ℝ), 4]) (some [1, 2]) ∧
    cosineSim (some [(1:ℝ)]) (some [1]) = 1 := by
  constructor
  · exact (cosine_sim_symm_self [(1:ℝ), 2] [3, 4] rfl).1
  · exact (cosine_sim_symm_self [(1:ℝ)] [1] rfl).2
      ⟨1, by simp, one_ne_zero⟩

theorem dotL_take_min (a : List ℝ) : ∀ b : List ℝ,
    dotL (a.take (min a.length b.length)) (b.take (min a.length b.length))
      = dotL a b := by
  induction a with
  | nil => intro b; simp [dotL]
  | cons x a ih =>
    intro b
    cases b with
    | nil => simp [dotL]
    | cons y b =>
      simp only [List.length_cons, Nat.succ_min_succ, List.take_succ_cons,
        dotL_cons]
      rw [ih b]

theorem dotL_replicate_zero (a : List ℝ) : ∀ k : Nat,
    dotL a (List.replicate k 0) = 0 := by
  induction a with
  | nil => intro k; simp [dotL]
  | cons x a ih =>
    intro k
    cases k with
    | zero => simp [dotL]
    | succ k =>
      rw [List.replicate_succ, dotL_cons, ih k]
      ring

theorem dotL_append_zeros (a : List ℝ) : ∀ (b : List ℝ) (k : Nat),
    dotL a (b ++ List.replicate k 0) = dotL a b := by
  induction a with
  | nil => intro b k; simp [dotL]
  | cons x a ih =>
    intro b k
    cases b with
    | nil =>
      rw [List.nil_append, dotL_replicate_zero, dotL_nil_right]
    | cons y b =>
      rw [List.cons_append, dotL_cons, dotL_cons, ih b k]

theorem sumSq_append_zeros (b : List ℝ) (k : Nat) :
    sumSq (b ++ List.replicate k 0) = sumSq b := by
  rw [sumSq, sumSq, List.map_append, List.sum_append]
  simp [List.map_replicate]

/-- C10 fails in its final clause: the unequal-length value IS the cosine
of a consistently padded pair — padding the shorter vector with zeros
reproduces it exactly ([1,0] is [1] zero-padded, and the mixed-length
score equals the padded-pair score). -/
theorem cosine_padding_counterexample :
    ([(1:ℝ), 0] : List ℝ) = [1] ++ List.replicate 1 0 ∧
    cosineSim (some [(1:ℝ), 0]) (some [1])
      = cosineSim (some [(1:ℝ), 0]) (some [1, 0]) := by
  constructor
  · rfl
  · have hs1 : sumSq [(1:ℝ), 0] = 1 := by simp [sumSq]
    have hs2 : sumSq [(1:ℝ)] = 1 := by simp [sumSq]
    have hn1 : normL [(1:ℝ), 0] = 1 := by rw [normL, hs1, Real.sqrt_one]
    have hn2 : normL [(1:ℝ)] = 1 := by rw [normL, hs2, Real.sqrt_one]
    have hd1 : dotL [(1:ℝ), 0] [1] = 1 := by simp [dotL]
    have hd2 : dotL [(1:ℝ), 0] [1, 0] = 1 := by simp [dotL]
    simp only [cosineSim, hn1, hn2, hd1, hd2]

/-- C10 (amended): the pure-Python fallback is total on every pair of
real lists; on unequal lengths it returns the dot product over the common
prefix divided by the product of the FULL norms — which equals the cosine
similarity of the pair with the shorter vector zero-padded, but differs
in general from the cosine of the pair truncated to the common prefix. -/
theorem cosine_sim_unequal_lengths (a b : List ℝ) :
    cosineSim (some a) (some b)
      = (if normL a = 0 ∨ normL b = 0 then -1
         else dotL (a.take (min a.length b.length))
            (b.take (min a.length b.length)) / (normL a * normL b)) ∧
    (∀ k : Nat, cosineSim (some a) (some (b ++ List.replicate k 0))
      = cosineSim (some a) (some b)) ∧
    cosineSim (some [(1:ℝ), 1]) (some [1])
      ≠ cosineSim (some [(1:ℝ)]) (some [1]) := by
  refine ⟨?_, ?_, ?_⟩
  · rw [dotL_take_min a b]
    rfl
  · intro k
    have hnb : normL (b ++ List.replicate k 0) = normL b := by
      rw [normL, normL, sumSq_append_zeros]
    simp only [cosineSim, hnb, dotL_append_zeros]
  · have hs1 : sumSq [(1:ℝ), 1] = 2 := by norm_num [sumSq]
    have hs2 : sumSq [(1:ℝ)] = 1 := by simp [sumSq]
    have hn2 : normL [(1:ℝ)] = 1 := by rw [normL, hs2, Real.sqrt_one]
    have hd1 : dotL [(1:ℝ), 1] [1] = 1 := by simp [dotL]
    have hd2 : dotL [(1:ℝ)] [1] = 1 := by simp [dotL]
    have hsq : Real.sqrt 2 * Real.sqrt 2 = 2 :=
      Real.mul_self_sqrt (by norm_num)
    have hgt : 1 < Real.sqrt 2 := by
      nlinarith [Real.sqrt_nonneg 2]
    have hn1 : normL [(1:ℝ), 1] = Real.sqrt 2 := by rw [normL, hs1]
    have hne1 : normL [(1:ℝ), 1] ≠ 0 := by rw [hn1]; nlinarith
    have hne2 : normL [(1:ℝ)] ≠ 0 := by rw [hn2]; norm_num
    simp only [cosineSim, hne1, hne2, hn1, hn2, hd1, hd2, or_self,
      if_neg, false_or, or_false]
    rw [if_neg (by simp [hne1, hne2, hn1, hn2]), if_neg (by simp [hne2, hn2])]
    intro heq
    have h1 : (Real.sqrt 2)⁻¹ = 1 := by
      rw [mul_one, one_div] at heq
      rw [heq]
      norm_num
    have h2 : Real.sqrt 2 = 1 := inv_eq_one.1 h1
    rw [h2] at hsq
    norm_num at hsq

/-- Witness for C10 (amended): padding [4] with two zeros leaves the
score against [3] unchanged. -/
theorem cosine_sim_unequal_lengths_witness :
    cosineSim (some [(3:ℝ)]) (some ([4] ++ List.replicate 2 0))
      = cosineSim (some [(3:ℝ)]) (some [4]) :=
  (cosine_sim_unequal_lengths [(3:ℝ)] [4]).2.1 2

end Hiring
